import Mathlib

/-!
Shallow embedding of the LL-HLS multi-rule ABR core (LlamaRule.ts, L2ARule.ts,
StallionRule.ts, LoLpRule.ts, LoLpWeightSelector.ts, LoLpQoeEvaluator.ts and the
orchestrating AbrController) and proofs about the claims of the specification.

Modelling conventions:
* JavaScript numbers are modelled by `ℚ` (exact arithmetic).  `NaN`-able inputs
  are modelled by `Option ℚ` where the code tests `isNaN`, and JavaScript
  truthiness tests on numbers are modelled by `≠ 0`.
* `Math.sqrt`, `Math.exp` and `Math.pow` with irrational results are abstracted
  as function parameters (`sqrtFn`, `expFn`) of the definitions that use them;
  all proved properties hold for every interpretation of those parameters.
* `Math.random` streams (k-means++ seeding) are abstracted as explicit inputs.
-/

set_option maxHeartbeats 1000000

/-- JavaScript `Math.round`: round half towards positive infinity. -/
def jsRound (x : ℚ) : ℤ := ⌊x + 1/2⌋

/-- Fragment playlist type (src/types/loader `PlaylistLevelType`). -/
inductive PlaylistLevelType where
  | main
  | audio
  | subtitle
deriving DecidableEq

/-- One `{timestamp, len}` entry of `startTimeData` / `endTimeData`. -/
structure TimeData where
  timestamp : ℚ
  len : ℚ
deriving DecidableEq

/-- Loader statistics of a fragment or part (`LoaderStats`).  `total` and
`bwEstimate` use `0` for the JavaScript falsy values (`undefined` / `0`). -/
structure LoaderStats where
  loadingStart : ℚ
  loadingEnd : ℚ
  parsingEnd : ℚ
  loaded : ℚ
  total : ℚ
  bwEstimate : ℚ
  aborted : Bool
  startTimeData : List TimeData
  endTimeData : List TimeData
  boxLoaded : ℚ
deriving DecidableEq

namespace LlamaABR

/-- Persistent fields of `LlamaABR` read by `getMaxIndex`.  `sn0 = none` models
a string sequence number (`"initSegment"`). -/
structure State where
  sn0 : Option ℤ
  harmonicMeanQ : List ℚ
deriving DecidableEq

/-- Environment read by `LlamaABR.getMaxIndex` on one call.
`bandwidthEstimate = none` models `NaN`. -/
structure Input where
  mediaType : PlaylistLevelType
  fragSn : Option ℤ
  stats : LoaderStats
  currentQuality : ℕ
  bandwidthEstimate : Option ℚ
  abrEwmaDefaultEstimate : ℚ
  levelBitrates : List ℚ
  bufferLevel : ℚ
deriving DecidableEq

/-- LlamaRule.ts lines 72–75: the aggregate the code computes from the queue of
reciprocals: `1 / (q.reduce((a, b) => a + 1 / b) / q.length)` times the safety
factor `1`.  JavaScript `reduce` without seed starts from the head element. -/
def harmonicMean (q : List ℚ) : ℚ :=
  match q with
  | [] => 0
  | a :: rest => 1 / ((rest.foldl (fun acc b => acc + 1 / b) a) / q.length) * 1

/-- `LlamaABR.getMaxIndex` (LlamaRule.ts lines 33–106).  Returns the chosen
quality index and the updated reciprocal queue.  The dead `!bufferStateVO`
branch (the buffer-info object is always truthy) is omitted. -/
def getMaxIndex (st : State) (inp : Input) : ℕ × List ℚ :=
  if inp.mediaType = PlaylistLevelType.audio then
    (inp.currentQuality, st.harmonicMeanQ)
  else if (match st.sn0, inp.fragSn with
           | none, _ => true
           | some s0, some sn => (sn - s0).natAbs < 5
           | some _, none => false) then
    (0, st.harmonicMeanQ)
  else
    let throughputMeasureTime := inp.stats.loadingEnd - inp.stats.loadingStart
    let downloadBytes := inp.stats.loaded
    let throughput : ℚ := (jsRound (8 * downloadBytes / throughputMeasureTime) : ℤ)
    let q1 := st.harmonicMeanQ ++ [1 / throughput]
    let q2 := if 10 < q1.length then q1.drop 1 else q1
    let hMean := harmonicMean q2
    let hlsThroughput := match inp.bandwidthEstimate with
      | some bw => bw / 1000
      | none => inp.abrEwmaDefaultEstimate / 1000
    let lastThroughput := hlsThroughput * 1
    let bitrates := inp.levelBitrates.map (fun b => b / 1000)
    let bitrateCount := bitrates.length
    let cq := inp.currentQuality
    let higherQuality := if cq + 1 < bitrateCount then cq + 1 else cq
    let lowerQuality := if 0 < (cq : ℤ) - 1 then cq - 1 else cq
    let quality :=
      if lastThroughput < bitrates.getD cq 0 then lowerQuality
      else if bitrates.getD higherQuality 0 < hMean ∧
              bitrates.getD higherQuality 0 < lastThroughput ∧
              -1 ≤ inp.bufferLevel then higherQuality
      else cq
    (quality, q2)

end LlamaABR

namespace L2ARule

/-- `arr.sort((a, b) => b - a)`: numeric descending sort. -/
def sortDescending (l : List ℚ) : List ℚ := List.insertionSort (· ≥ ·) l

/-- The scan of `euclideanProjection` (L2ARule.ts lines 374–387) computing
`tmax`: iterate over the descending sort with running prefix sum `tmpsum`
(`idx` elements consumed so far), stop at the first index where
`(tmpsum - 1)/(idx + 1) ≥` the next element, else finish with
`(tmpsum + s[m-1] - 1)/m`. -/
def projectionTmax : ℚ → ℕ → List ℚ → ℚ
  | _, _, [] => 0
  | tmpsum, idx, [last] => (tmpsum + last - 1) / (idx + 1)
  | tmpsum, idx, a :: b :: rest =>
    let t := tmpsum + a
    let tmax := (t - 1) / (idx + 1)
    if b ≤ tmax then tmax else projectionTmax t (idx + 1) (b :: rest)

/-- `L2ARule.euclideanProjection` (L2ARule.ts lines 364–392): project onto the
probability simplex; `x[i] = max(arr[i] - tmax, 0)` in the original order. -/
def euclideanProjection (arr : List ℚ) : List ℚ :=
  let s := sortDescending arr
  let tmax := projectionTmax 0 0 s
  arr.map (fun v => max (v - tmax) 0)

/-- `L2ARule._dotmultiplication`: `-1` on length mismatch, else the dot
product. -/
def dotmultiplication (arr1 arr2 : List ℚ) : ℚ :=
  if arr1.length ≠ arr2.length then -1
  else (List.zipWith (· * ·) arr1 arr2).sum

/-- The descending index scan shared by both `getQualityForBitrate` variants:
`for (i = len - 1; i >= 0; i--) if (bitrate * 1000 >= bitrateList[i]) return i;
return 0`. -/
def scanForBitrate (bitrate : ℚ) (bitrateList : List ℚ) : ℕ → ℕ
  | 0 => 0
  | i + 1 => if bitrateList.getD i 0 ≤ bitrate * 1000 then i else scanForBitrate bitrate bitrateList i

/-- `L2ARule.getQualityForBitrate` (L2ARule.ts lines 399–426).  `fragDuration`
is `fragCurrent`'s duration when a current fragment exists.  The live-latency
gate is the strict test `deltaLatency > fragmentDuration`. -/
def getQualityForBitrate (latency targetLatency : ℚ) (fragDuration : Option ℚ)
    (levelBitrates : List ℚ) (bitrate : ℚ) : ℕ :=
  if latency ≠ 0 ∧ fragDuration.isSome then
    let d := fragDuration.getD 0
    let deltaLatency := |latency - targetLatency|
    if d < deltaLatency then 0
    else scanForBitrate (bitrate * (1 - deltaLatency / d)) levelBitrates levelBitrates.length
  else scanForBitrate bitrate levelBitrates levelBitrates.length

/-- `temp.indexOf(Math.min(...temp))`: first index of the minimum. -/
def idxOfMin : List ℚ → ℕ
  | [] => 0
  | a :: rest => List.findIdx (fun x => decide (x = rest.foldl min a)) (a :: rest)

/-- The three-valued state machine tag of L2A. -/
inductive StateTag where
  | oneBitrate
  | startup
  | steady
deriving DecidableEq

/-- The fields of `l2AState` read by `getMaxIndex`.
`lastSegmentDurationS = none` models `NaN`. -/
structure L2AState where
  state : StateTag
  lastQuality : ℕ
  lastSegmentDurationS : Option ℚ
deriving DecidableEq

/-- The fields of `l2AParameters` read by `getMaxIndex`. -/
structure L2AParameters where
  Q : ℚ
  w : List ℚ
  prev_w : List ℚ
  B_target : ℚ
deriving DecidableEq

/-- `_getInitialL2AState`: fresh state starts in STARTUP. -/
def initialL2AState : L2AState :=
  { state := .startup, lastQuality := 0, lastSegmentDurationS := none }

/-- `_initializeL2AParameters`: fresh parameters. -/
def initialL2AParameters : L2AParameters :=
  { Q := 0, w := [], prev_w := [], B_target := 3/2 }

/-- Environment read by `L2ARule.getMaxIndex` on one call. -/
structure Input where
  mediaType : PlaylistLevelType
  levelBitrates : List ℚ
  bandwidthEstimate : Option ℚ
  abrEwmaDefaultEstimate : ℚ
  bufferLevel : ℚ
  currentPlaybackRate : ℚ
  isLive : Bool
  latency : ℚ
  targetLatency : ℚ
  fragDuration : Option ℚ
  currentQuality : ℕ
deriving DecidableEq

/-- `L2ARule.getMaxIndex` (L2ARule.ts lines 432–597), decision value.  `vl` and
`alpha` stand for `4^0.99` and `max(4, 4^0.99·√4)` whose exact values are
irrational; every proved property holds for all values of these parameters.
The Lagrangian-multiplier bookkeeping (`Q` update and recalibration) mutates
only stored state, never the returned quality, and is not replayed here.
The `isNaN(throughput)` branch is unreachable because the config default
estimate substitutes for a `NaN` bandwidth estimate. -/
def getMaxIndex (vl alpha : ℚ) (stOpt : Option L2AState) (parOpt : Option L2AParameters)
    (inp : Input) : ℕ :=
  let bitratesBps := inp.levelBitrates
  let bitrateCount := bitratesBps.length
  let throughput := match inp.bandwidthEstimate with
    | some bw => bw / 1000
    | none => inp.abrEwmaDefaultEstimate / 1000
  let currentQuality := inp.currentQuality
  if inp.mediaType = PlaylistLevelType.audio then currentQuality
  else
    -- `_getL2AState` initializes both dictionaries when the state is missing
    let st := match stOpt with | none => initialL2AState | some s => s
    let parOpt' := match stOpt with | none => some initialL2AParameters | some _ => parOpt
    if st.state = StateTag.oneBitrate then currentQuality
    else
      match parOpt' with
      | none => currentQuality
      | some par =>
        let targetLatency := inp.targetLatency
        let deltaLatency := |inp.latency - targetLatency|
        match st.state with
        | .oneBitrate => currentQuality
        | .startup =>
          if inp.isLive = true ∧
              (inp.fragDuration = none ∨ inp.fragDuration.getD 0 ≤ deltaLatency) then 0
          else getQualityForBitrate inp.latency targetLatency inp.fragDuration bitratesBps throughput
        | .steady =>
          let lastthroughput := if throughput < 1 then 1 else throughput
          let V := st.lastSegmentDurationS.getD 0
          let r := inp.currentPlaybackRate
          let bitratesKbps := bitratesBps.map (fun b => b / 1000)
          -- Lagrangian descent; `sign` is sticky across loop iterations as in the source
          let wRaw := ((List.range bitrateCount).foldl (fun p i =>
            let b := bitratesKbps.getD i 0
            let sign : ℚ := if lastthroughput < r * b then -1 else p.1
            (sign, p.2 ++ [par.prev_w.getD i 0 +
              sign * (V / (2 * alpha)) * ((par.Q + vl) * (r * b / lastthroughput))]))
            ((1 : ℚ), ([] : List ℚ))).2
          let w := euclideanProjection wRaw
          let temp := (List.range bitrateCount).map
            (fun i => |bitratesKbps.getD i 0 - dotmultiplication w bitratesKbps|)
          let quality := idxOfMin temp
          -- cautious stepwise ascent
          if st.lastQuality < quality ∧ bitratesKbps.getD (st.lastQuality + 1) 0 ≤ lastthroughput
          then st.lastQuality + 1 else quality

end L2ARule

namespace StallionRule

/-- `StallionRule.getMean`: `array.reduce((a, b) => a + b) / array.length`. -/
def getMean (arr : List ℚ) : ℚ := arr.sum / arr.length

/-- `StallionRule.getStandardDeviation`; `Math.sqrt` abstracted as `sqrtFn`. -/
def getStandardDeviation (sqrtFn : ℚ → ℚ) (arr : List ℚ) : ℚ :=
  let n : ℚ := arr.length
  let mean := arr.sum / n
  sqrtFn ((arr.map (fun x => (x - mean) ^ 2)).sum / n)

/-- `StallionRule.getQualityForBitrate` (src/unnamed/part_000 lines 50–73).
Identical to the L2A variant except the live-latency gate is the non-strict
test `deltaLatency >= fragmentDuration`. -/
def getQualityForBitrate (latency targetLatency : ℚ) (fragDuration : Option ℚ)
    (levelBitrates : List ℚ) (bitrate : ℚ) : ℕ :=
  if latency ≠ 0 ∧ fragDuration.isSome then
    let d := fragDuration.getD 0
    let deltaLatency := |latency - targetLatency|
    if d ≤ deltaLatency then 0
    else L2ARule.scanForBitrate (bitrate * (1 - deltaLatency / d)) levelBitrates levelBitrates.length
  else L2ARule.scanForBitrate bitrate levelBitrates levelBitrates.length

/-- Persistent sliding windows of `StallionRule`. -/
structure State where
  throughputArr : List ℚ
  latencyArr : List ℚ
deriving DecidableEq

/-- Environment read by `StallionRule.getMaxIndex` on one call. -/
structure Input where
  mediaType : PlaylistLevelType
  bandwidthEstimate : Option ℚ
  abrEwmaDefaultEstimate : ℚ
  latency : ℚ
  isLive : Bool
  targetLatency : ℚ
  fragDuration : Option ℚ
  bufferLen : ℚ
  levelBitrates : List ℚ
  currentQuality : ℕ

/-- `StallionRule.getMaxIndex` (src/unnamed/part_000 lines 75–128): returns the
decision and the updated sliding windows.  The `isNaN(throughput)` branch is
unreachable (the mean of a freshly pushed rational window is a rational) and
the always-truthy `!bufferStateVO` test is omitted. -/
def getMaxIndex (sqrtFn : ℚ → ℚ) (st : State) (inp : Input) : ℕ × State :=
  let quality := inp.currentQuality
  if inp.mediaType = PlaylistLevelType.audio then (quality, st)
  else
    let hlsThroughput := match inp.bandwidthEstimate with
      | some bw => bw / 1000
      | none => inp.abrEwmaDefaultEstimate / 1000
    let tArr1 := st.throughputArr ++ [hlsThroughput]
    let lArr1 := st.latencyArr ++ [inp.latency]
    let tArr := if 3 < tArr1.length then tArr1.drop 1 else tArr1
    let lArr := if 4 < lArr1.length then lArr1.drop 1 else lArr1
    let throughput := getMean tArr
    let throughputStd := getStandardDeviation sqrtFn tArr
    let bitrate := throughput - 1 * throughputStd
    let latencyMean := getMean lArr
    let stdLatency := getStandardDeviation sqrtFn lArr
    let lat := latencyMean + (5/4) * stdLatency
    let tArrOut := if inp.isLive then tArr else tArr.dropLast
    let lArrOut := if inp.isLive then lArr else lArr.dropLast
    let st' : State := { throughputArr := tArrOut, latencyArr := lArrOut }
    let targetLatency := inp.targetLatency
    let deltaLatency := |lat - targetLatency|
    if inp.fragDuration.isSome ∧ deltaLatency < inp.fragDuration.getD 0 ∧ 0 < inp.bufferLen then
      (getQualityForBitrate lat targetLatency inp.fragDuration inp.levelBitrates bitrate, st')
    else (quality, st')

end StallionRule

/-- SOM neuron state vector (LoLpRule.ts `State`). -/
structure NeuronState where
  throughput : ℚ
  latency : ℚ
  rebuffer : ℚ
  switch : ℚ
deriving DecidableEq

/-- SOM neuron, one per ladder rung (LoLpRule.ts `Neuron`). -/
structure Neuron where
  qualityIndex : ℕ
  bitrate : ℚ
  state : NeuronState
deriving DecidableEq

/-- Placeholder neuron used to model out-of-range JavaScript indexing. -/
def defaultNeuron : Neuron :=
  { qualityIndex := 0, bitrate := 0,
    state := { throughput := 0, latency := 0, rebuffer := 0, switch := 0 } }

namespace LoLpQoeEvaluator

/-- The latency weighted-sum contribution of one `logSegmentMetrics` call: the
first bucket of `latencyPenalty` whose threshold is at least the latency
applies (`{1.1, min·0.05}`, then `{1e8, max·0.1}`); above every threshold
nothing accrues. -/
def latencyTerm (minBitrateKbps maxBitrateKbps latency : ℚ) : ℚ :=
  if latency ≤ 11/10 then (minBitrateKbps * (5/100)) * latency
  else if latency ≤ 100000000 then (maxBitrateKbps * (1/10)) * latency
  else 0

/-- `LoLpQoeEvaluator.calculateSingleUseQoe` with the stored per-segment setup
`(segmentDuration, maxBitrateKbps, minBitrateKbps)` passed explicitly.  The
guard models the truthiness test on the three stored fields; on a fresh
`QoeInfo` the `lastBitrate` field is null so no bitrate-switch penalty
accrues. -/
def calculateSingleUseQoe (segmentDuration maxBitrateKbps minBitrateKbps : ℚ)
    (segmentBitrate segmentRebufferTime currentLatency currentPlaybackSpeed : ℚ) : ℚ :=
  if segmentDuration ≠ 0 ∧ maxBitrateKbps ≠ 0 ∧ minBitrateKbps ≠ 0 then
    let bitrateReward := if segmentDuration = 0 then 1 else segmentDuration
    let rebufferPenalty := if maxBitrateKbps = 0 then 1000 else maxBitrateKbps
    let playbackSpeedPenalty := if minBitrateKbps = 0 then 200 else minBitrateKbps
    bitrateReward * segmentBitrate
      - rebufferPenalty * segmentRebufferTime
      - latencyTerm minBitrateKbps maxBitrateKbps currentLatency
      - playbackSpeedPenalty * |1 - currentPlaybackSpeed|
  else 0

end LoLpQoeEvaluator

namespace LoLpWeightSelector

/-- `valueList = [0.2, 0.4, 0.6, 0.8, 1]`. -/
def valueList : List ℚ := [1/5, 2/5, 3/5, 4/5, 1]

/-- `weightTypeCount = 4`. -/
def weightTypeCount : ℕ := 4

/-- One pass of the queue-based permutation generator of `_getPermutations`:
each stored permutation is replaced (in order) by its five one-element
extensions. -/
def permutationRound (list : List ℚ) (perm : List (List ℚ)) : List (List ℚ) :=
  perm.foldl (fun acc currPerm => acc ++ list.map (fun v => currPerm ++ [v])) []

/-- The recursion of `_getPermutations.generate`, indexed by the number of
remaining rounds (`length - currLen`). -/
def permutationRounds (list : List ℚ) : ℕ → List (List ℚ) → List (List ℚ)
  | 0, perm => perm
  | n + 1, perm => permutationRounds list n (permutationRound list perm)

/-- `LoLpWeightSelector._getPermutations` (src/unnamed/part_001 lines 129–156):
starts from the size-1 permutations and runs `weightTypeCount - 1` rounds. -/
def getPermutations : List (List ℚ) :=
  permutationRounds valueList (weightTypeCount - 1) (valueList.map (fun v => [v]))

/-- Constructor configuration of `LoLpWeightSelector` together with the QoE
evaluator setup it closes over (`setupPerSegmentQoe` values). -/
structure Config where
  targetLatency : ℚ
  bufferMin : ℚ
  segmentDuration : ℚ
  qoeSegmentDuration : ℚ
  qoeMaxBitrateKbps : ℚ
  qoeMinBitrateKbps : ℚ
deriving DecidableEq

/-- `LoLpWeightSelector.getNextBuffer`. -/
def getNextBuffer (cfg : Config) (currentBuffer downloadTime : ℚ) : ℚ :=
  if cfg.segmentDuration < downloadTime then currentBuffer - cfg.segmentDuration
  else currentBuffer + cfg.segmentDuration - downloadTime

/-- `LoLpWeightSelector.getNextBufferWithBitrate`. -/
def getNextBufferWithBitrate (cfg : Config) (bitrateToDownload currentBuffer currentThroughput : ℚ) : ℚ :=
  getNextBuffer cfg currentBuffer (bitrateToDownload * cfg.segmentDuration / currentThroughput)

/-- `LoLpWeightSelector._checkConstraints`. -/
def checkConstraints (cfg : Config) (nextLatency nextBuffer deltaLatency : ℚ) : Bool :=
  if cfg.targetLatency + deltaLatency < nextLatency then false
  else cfg.bufferMin ≤ nextBuffer

/-- One iteration of the inner weight-vector loop of `findWeightVector`
(src/unnamed/part_001 lines 55–92): keep the `(maxQoE, winnerWeights)` pair of
largest utility, first occurrence winning ties.  `f` is the QoE computation of
the loop body. -/
def pickWeights (f : List ℚ → ℚ) (acc : Option (ℚ × List ℚ)) (weightVector : List ℚ) :
    Option (ℚ × List ℚ) :=
  let totalQoE := f weightVector
  match acc with
  | none => some (totalQoE, weightVector)
  | some (maxQoE, ww) =>
    if maxQoE < totalQoE then some (totalQoE, weightVector) else some (maxQoE, ww)

/-- One iteration of the outer neuron loop of `findWeightVector`: skip the
neuron when its constraints fail, else run the weight-vector loop on the
running accumulator. -/
def scoreNeuron (cfg : Config)
    (deltaLatency currentLatency currentBuffer currentThroughput playbackRate : ℚ)
    (acc : Option (ℚ × List ℚ)) (neuron : Neuron) : Option (ℚ × List ℚ) :=
  let downloadTime := neuron.bitrate * cfg.segmentDuration / currentThroughput
  let nextBuffer := getNextBuffer cfg currentBuffer downloadTime
  let rebuffer := max (1/100000) (downloadTime - nextBuffer)
  if checkConstraints cfg currentLatency nextBuffer deltaLatency then
    getPermutations.foldl (pickWeights (fun weightVector =>
      let wBuffer := weightVector.getD 2 0
      let wLatency := weightVector.getD 1 0
      let wtB := if wBuffer = 0 then 10 else 1 / wBuffer
      let weightedRebuffer := wtB * rebuffer
      let wtL := if wLatency = 0 then 10 else 1 / wLatency
      let weightedLatency := wtL * neuron.state.latency
      LoLpQoeEvaluator.calculateSingleUseQoe cfg.qoeSegmentDuration
        cfg.qoeMaxBitrateKbps cfg.qoeMinBitrateKbps
        neuron.bitrate weightedRebuffer weightedLatency playbackRate)) acc
  else acc

/-- `LoLpWeightSelector.findWeightVector` (src/unnamed/part_001 lines 31–103).
Returns `some winnerWeights`, or `none` for the sentinel `-1` (no feasible
neuron).  The `winnerWeights === null && winnerBitrate === null` test of the
source collapses to this because both are always assigned together.  The
unused `currentRebuffer` argument of the source is dropped; the
`previousLatency := currentLatency` state write happens after the return value
is fixed. -/
def findWeightVector (cfg : Config) (previousLatency : ℚ) (neurons : List Neuron)
    (currentLatency currentBuffer currentThroughput playbackRate : ℚ) :
    Option (List ℚ) :=
  let deltaLatency := |currentLatency - previousLatency|
  let acc := neurons.foldl
    (scoreNeuron cfg deltaLatency currentLatency currentBuffer currentThroughput playbackRate)
    (none : Option (ℚ × List ℚ))
  acc.map (fun p => p.2)

end LoLpWeightSelector

namespace LearningAbrController

/-- `LearningAbrController._getMagnitude`: Euclidean norm; `Math.sqrt`
abstracted as `sqrtFn`. -/
def getMagnitude (sqrtFn : ℚ → ℚ) (w : List ℚ) : ℚ :=
  sqrtFn ((w.map (fun x => x ^ 2)).sum)

/-- `LearningAbrController._getDistance`: signed square root of the weighted
sum of squared differences. -/
def getDistance (sqrtFn : ℚ → ℚ) (a b w : List ℚ) : ℚ :=
  let s := ((List.range a.length).map
    (fun i => w.getD i 0 * (a.getD i 0 - b.getD i 0) ^ 2)).sum
  let sign : ℚ := if s < 0 then -1 else 1
  sign * sqrtFn |s|

/-- `LearningAbrController._getMaxThroughput` over a neuron list. -/
def getMaxThroughput (neurons : List Neuron) : ℚ :=
  neurons.foldl (fun m n => if m < n.state.throughput then n.state.throughput else m) 0

/-- `LearningAbrController._getDownShiftNeuron`: the highest-bitrate neuron
strictly below the current one whose bitrate is below the throughput, else the
current neuron. -/
def getDownShiftNeuron (currentNeuron : Neuron) (currentThroughput : ℚ)
    (neurons : List Neuron) : Neuron :=
  (neurons.foldl (fun p n =>
    if n.bitrate < currentNeuron.bitrate ∧ p.1 < n.bitrate ∧ n.bitrate < currentThroughput then
      (n.bitrate, n)
    else p) ((0 : ℚ), currentNeuron)).2

/-- The deterministic part of `_getSomBitrateNeurons` on first use: one neuron
per ladder rung with `throughput = bitrate / ‖bitrates‖₂`, plus the
normalization factor and the minimum bitrate. -/
def mkSomBitrateNeurons (sqrtFn : ℚ → ℚ) (bitrateList : List ℚ) : List Neuron × ℚ × ℚ :=
  let minBitrate := bitrateList.foldl (fun m b => if b < m then b else m) (bitrateList.headD 0)
  let factor := getMagnitude sqrtFn bitrateList
  let neurons := (List.range bitrateList.length).map (fun i =>
    { qualityIndex := i, bitrate := bitrateList.getD i 0,
      state := { throughput := bitrateList.getD i 0 / factor,
                 latency := 0, rebuffer := 0, switch := 0 } : Neuron })
  (neurons, factor, minBitrate)

/-- Persistent fields of `LearningAbrController` read by `getNextQuality`.
`sortedCenters` holds the k-means++ centers, whose pseudorandom construction
is abstracted as state. -/
structure State where
  somBitrateNeurons : Option (List Neuron)
  bitrateNormalizationFactor : ℚ
  minBitrate : ℚ
  weights : Option (List ℚ)
  sortedCenters : List (List ℚ)
deriving DecidableEq

/-- The neuron list, normalization factor, minimum bitrate and sorted centers
seen by one `getNextQuality` call: stored ones, or freshly built from the
ladder (`randomSortedCenters` abstracts the `Math.random`-seeded k-means++
output of the fresh build). -/
def resolve (sqrtFn : ℚ → ℚ) (st : State) (bitrateList : List ℚ)
    (randomSortedCenters : List (List ℚ)) : List Neuron × ℚ × ℚ × List (List ℚ) :=
  match st.somBitrateNeurons with
  | some ns => (ns, st.bitrateNormalizationFactor, st.minBitrate, st.sortedCenters)
  | none =>
    let (ns, f, m) := mkSomBitrateNeurons sqrtFn bitrateList
    (ns, f, m, randomSortedCenters)

/-- One iteration of the winner (best-matching-unit) loop of `getNextQuality`
(LoLpRule.ts lines 271–318): keep the neuron of smallest distance, first
occurrence winning ties.  `D` is the distance computation of the loop body. -/
def pickWinner (D : Neuron → ℚ) (acc : Option (ℚ × Neuron)) (somNeuron : Neuron) :
    Option (ℚ × Neuron) :=
  let distance := D somNeuron
  match acc with
  | none => some (distance, somNeuron)
  | some (minD, wn) => if distance < minD then some (distance, somNeuron) else some (minD, wn)

/-- `LearningAbrController.getNextQuality` (LoLpRule.ts lines 187–341),
decision value, in the default DYNAMIC weight-selection mode.
`selectorPreviousLatency` is the weight selector's `previousLatency` field
(`0` for the per-decision selector the orchestrator builds).  The
post-decision SOM neighbourhood updates (`_updateNeurons`) mutate only neuron
states, never the returned index, and are not replayed here. -/
def getNextQuality (sqrtFn : ℚ → ℚ) (st : State) (cfg : LoLpWeightSelector.Config)
    (selectorPreviousLatency : ℚ) (randomSortedCenters : List (List ℚ))
    (bitrateList : List ℚ) (throughput latency bufferSize playbackRate : ℚ)
    (currentQualityIndex : ℕ) : ℕ :=
  let currentLatency := latency
  let currentBuffer := bufferSize
  let currentThroughput := throughput
  let r := resolve sqrtFn st bitrateList randomSortedCenters
  let somElements := r.1
  let factor := r.2.1
  let minBitrate := r.2.2.1
  let sortedCenters := r.2.2.2
  let throughputNormalized0 := throughput / factor
  let throughputNormalized :=
    if 1 < throughputNormalized0 then getMaxThroughput somElements else throughputNormalized0
  let targetLatency : ℚ := 0
  let targetRebufferLevel : ℚ := 0
  let targetSwitch : ℚ := 0
  let throughputDelta : ℚ := 10000
  let currentNeuron := somElements.getD currentQualityIndex defaultNeuron
  let downloadTime := currentNeuron.bitrate * cfg.segmentDuration / currentThroughput
  if currentBuffer - downloadTime < cfg.bufferMin then
    (getDownShiftNeuron currentNeuron currentThroughput somElements).qualityIndex
  else
    -- DYNAMIC weight selection
    let weights0 := match st.weights with
      | none => sortedCenters.getD (sortedCenters.length - 1) []
      | some ws => ws
    let weightVector := LoLpWeightSelector.findWeightVector cfg selectorPreviousLatency
      somElements currentLatency currentBuffer currentThroughput playbackRate
    let weights := match weightVector with
      | some v => v
      | none => weights0
    let D := fun (somNeuron : Neuron) =>
      let somData := [somNeuron.state.throughput, somNeuron.state.latency,
                      somNeuron.state.rebuffer, somNeuron.state.switch]
      let nextBuffer := LoLpWeightSelector.getNextBufferWithBitrate cfg somNeuron.bitrate
        currentBuffer currentThroughput
      let isBufferLow := nextBuffer < cfg.bufferMin
      let distanceWeights :=
        if (throughput - throughputDelta < somNeuron.bitrate ∨ isBufferLow) ∧
            somNeuron.bitrate ≠ minBitrate
        then weights.set 0 100 else weights
      getDistance sqrtFn somData
        [throughputNormalized, targetLatency, targetRebufferLevel, targetSwitch] distanceWeights
    match somElements.foldl (pickWinner D) none with
    | none => 0   -- unreachable for a non-empty neuron list
    | some (_, winnerNeuron) => winnerNeuron.qualityIndex

end LearningAbrController

namespace AbrController

/-- The fields of the current fragment read by `_abandonRulesCheck`. -/
structure AbandonFrag where
  level : ℕ
  duration : ℚ
  stats : LoaderStats
deriving DecidableEq

/-- The fields of the current part read by `_abandonRulesCheck`. -/
structure AbandonPart where
  duration : ℚ
  stats : LoaderStats
deriving DecidableEq

/-- Environment of one `_abandonRulesCheck` timer tick. -/
structure AbandonInput where
  frag : Option AbandonFrag
  part : Option AbandonPart
  mediaPresent : Bool
  autoLevelEnabled : Bool
  mediaPaused : Bool
  mediaPlaybackRate : ℚ
  mediaReadyState : ℕ
  nowMs : ℚ
  mediaCurrentTime : ℚ
  bufferEnd : ℚ
  levelMaxBitrates : List ℚ
  minAutoLevel : ℕ
deriving DecidableEq

/-- The downward level walk of `_abandonRulesCheck` (LlamaRule.ts lines
295–313): from `frag.level - 1` while above `minAutoLevel`, stop at the first
level whose estimated load delay beats the starvation delay.  Returns the
final `fragLevelNextLoadedDelay` (`none` = the initial `+∞`) and the final
`nextLoadLevel`. -/
def abandonLoop (duration loadRate bufferStarvationDelay : ℚ) (levels : List ℚ)
    (minAutoLevel : ℕ) (n : ℤ) (last : Option ℚ) : Option ℚ × ℤ :=
  if h : (minAutoLevel : ℤ) < n then
    let d := duration * levels.getD n.toNat 0 / (8 * (4/5) * loadRate)
    if d < bufferStarvationDelay then (some d, n)
    else abandonLoop duration loadRate bufferStarvationDelay levels minAutoLevel (n - 1) (some d)
  else (last, n)
termination_by (n - minAutoLevel).toNat
decreasing_by
  omega

/-- The `duration` used by `_abandonRulesCheck`: the part's when a part is
current, else the fragment's. -/
def abandonDuration (inp : AbandonInput) : ℚ :=
  match inp.part with
  | some p => p.duration
  | none => match inp.frag with
    | some f => f.duration
    | none => 0

/-- `AbrController._abandonRulesCheck` (LlamaRule.ts lines 231–341).
`some l` means the tick forces `nextLoadLevel := l`, aborts the loader and
raises `FRAG_LOAD_EMERGENCY_ABORTED`; `none` means no abort happens on this
tick. -/
def abandonRulesCheck (inp : AbandonInput) : Option ℤ :=
  match inp.frag with
  | none => none
  | some frag =>
    if ¬ inp.mediaPresent then none
    else
      let stats := match inp.part with | some p => p.stats | none => frag.stats
      let duration := abandonDuration inp
      if stats.aborted then none
      else if ¬ inp.autoLevelEnabled ∨ inp.mediaPaused ∨ inp.mediaPlaybackRate = 0 ∨
          inp.mediaReadyState = 0 then none
      else
        let requestDelay := inp.nowMs - stats.loadingStart
        let playbackRate := |inp.mediaPlaybackRate|
        if requestDelay ≤ 500 * duration / playbackRate then none
        else
          let levelMax := inp.levelMaxBitrates.getD frag.level 0
          let expectedLen := if stats.total ≠ 0 then stats.total
            else max stats.loaded ((jsRound (duration * levelMax / 8) : ℤ) : ℚ)
          let loadRate := max 1 (if stats.bwEstimate ≠ 0 then stats.bwEstimate / 8
            else stats.loaded * 1000 / requestDelay)
          let fragLoadedDelay := (expectedLen - stats.loaded) / loadRate
          let pos := inp.mediaCurrentTime
          let bufferStarvationDelay := (inp.bufferEnd - pos) / playbackRate
          if 2 * duration / playbackRate ≤ bufferStarvationDelay ∨
              fragLoadedDelay ≤ bufferStarvationDelay then none
          else
            let walk := abandonLoop duration loadRate bufferStarvationDelay
              inp.levelMaxBitrates inp.minAutoLevel ((frag.level : ℤ) - 1) none
            match walk.1 with
            | none => none
            | some d => if fragLoadedDelay ≤ d then none else some walk.2

/-- Environment of one `onFragBuffered` call. -/
structure FragBufferedInput where
  fragType : PlaylistLevelType
  fragSnIsInit : Bool
  fragStats : LoaderStats
  partStats : Option LoaderStats
  boxThroughputOn : Bool
deriving DecidableEq

/-- The index filter `(x, i) => i > 0 && i < length - 1` used on
`startTimeData` / `endTimeData`. -/
def trimEnds (l : List TimeData) : List TimeData := (l.drop 1).dropLast

/-- `const stats = part ? part.stats : frag.stats` of `onFragBuffered`. -/
def bufferedStats (inp : FragBufferedInput) : LoaderStats :=
  match inp.partStats with | some s => s | none => inp.fragStats

/-- `AbrController.onFragBuffered` (LlamaRule.ts lines 383–432), restricted to
its observable effect on the bandwidth estimator: the list of
`bwEstimator.sample(durationMs, bytes)` calls the handler performs. -/
def onFragBufferedSamples (inp : FragBufferedInput) : List (ℚ × ℚ) :=
  let stats := bufferedStats inp
  if stats.aborted then []
  else if inp.fragType ≠ PlaylistLevelType.main ∨ inp.fragSnIsInit then []
  else
    let processingMs := stats.parsingEnd - stats.loadingStart
    let fragProcessingMs := inp.fragStats.loadingEnd - inp.fragStats.loadingStart
    if inp.boxThroughputOn then
      let startTD := inp.fragStats.startTimeData
      let endTD := inp.fragStats.endTimeData
      let startData := trimEnds startTD
      let endData := trimEnds endTD
      if 0 < startData.length * endData.length then
        let boxProcessingMs := ((endData.getLast?.map TimeData.timestamp).getD 0) -
          ((startData.head?.map TimeData.timestamp).getD 0)
        let boxLoaded := inp.fragStats.boxLoaded - ((endTD.getLast?.map TimeData.len).getD 0)
        [(boxProcessingMs, boxLoaded)]
      else [(fragProcessingMs, inp.fragStats.loaded)]
    else
      if stats.loaded ≠ 0 then [(processingMs, stats.loaded)]
      else [(fragProcessingMs, inp.fragStats.loaded)]

/-- The rule tags dispatched by the `nextAutoLevel` getter. -/
inductive ABRTag where
  | lolp
  | l2a
  | llama
  | stallion
  | other
deriving DecidableEq

/-- The orchestrator fields involved in rule-instance lifecycle.  Live rule
instances are modelled by creation stamps (`Option ℕ`); `nextId` is the next
fresh stamp. -/
structure OrchState where
  lastABRRule : ABRTag
  abrRule : ABRTag
  l2aRule : Option ℕ
  llama : Option ℕ
  stallionRule : Option ℕ
  fragPresent : Bool
  forcedAutoLevel : ℤ
  canEstimate : Bool
  nextId : ℕ
deriving DecidableEq

/-- How many fresh rule objects one `nextAutoLevel` call constructed. -/
structure StepLog where
  newLearning : ℕ
  newL2A : ℕ
  newLlama : ℕ
  newStallion : ℕ
deriving DecidableEq

/-- No constructions. -/
def noNew : StepLog := { newLearning := 0, newL2A := 0, newLlama := 0, newStallion := 0 }

/-- The teardown switch at the top of the `nextAutoLevel` getter (LlamaRule.ts
lines 464–477): drop the stored instance of the previous tag when the active
tag differs. -/
def teardownStep (s : OrchState) : OrchState :=
  match s.lastABRRule with
  | .l2a => if s.abrRule ≠ ABRTag.l2a then { s with l2aRule := none } else s
  | .llama => if s.abrRule ≠ ABRTag.llama then { s with llama := none } else s
  | .stallion => if s.abrRule ≠ ABRTag.stallion then { s with stallionRule := none } else s
  | _ => s

/-- The rule-lifecycle behaviour of one `nextAutoLevel` read (LlamaRule.ts
lines 452–501 with `_lolpLearningAbr`, `_L2AAbr`, `_LlamaAbr`,
`_StallionAbr`): teardown switch, then dispatch.  `LoLp` constructs a fresh
`LearningAbrController` on every call; the other three rules are constructed
lazily into their slot and afterwards reused via `update`. -/
def orchStep (s : OrchState) : OrchState × StepLog :=
  if s.forcedAutoLevel ≠ -1 ∧ ¬ s.canEstimate then (s, noNew)
  else
    let s1 := teardownStep s
    match s1.abrRule with
    | .lolp => (s1, { noNew with newLearning := 1 })
    | .l2a =>
      match s1.l2aRule with
      | none => ({ s1 with l2aRule := some s1.nextId, nextId := s1.nextId + 1 },
                 { noNew with newL2A := 1 })
      | some _ => (s1, noNew)
    | .llama =>
      match s1.llama with
      | none =>
        if s1.fragPresent then
          ({ s1 with llama := some s1.nextId, nextId := s1.nextId + 1 },
           { noNew with newLlama := 1 })
        else (s1, noNew)
      | some _ => (s1, noNew)
    | .stallion =>
      match s1.stallionRule with
      | none => ({ s1 with stallionRule := some s1.nextId, nextId := s1.nextId + 1 },
                 { noNew with newStallion := 1 })
      | some _ => (s1, noNew)
    | .other => (s1, noNew)

end AbrController

/-- Squared Euclidean (ℓ²) distance between two vectors, used to state the
projection optimality property. -/
def sqDist (u v : List ℚ) : ℚ := (List.zipWith (fun a b => (a - b) ^ 2) u v).sum

/-- The per-window aggregate the specification ascribes to Llama: the window
holds the reciprocals `1/tᵢ`, so the harmonic mean of the samples is
`N / Σ(1/tᵢ)` = window length divided by the window sum (safety factor `1`). -/
def harmonicMeanSpec (q : List ℚ) : ℚ := q.length / q.sum

/-- Llama state for the switch-down evaluations: numeric `sn0`, empty window. -/
def llamaState0 : LlamaABR.State := { sn0 := some 0, harmonicMeanQ := [] }

/-- Llama input reproducing spec scenario 2 at level 1: ladder
`[300, 750, 1500, 3000]` kbps, collapsed throughput 400 kbps
(`bandwidthEstimate` 400000 bps), a past-warmup fragment (`sn = 10`), one
fragment of 50000 bytes loaded in 1000 ms. -/
def llamaDropInput : LlamaABR.Input :=
  { mediaType := .main, fragSn := some 10,
    stats := { loadingStart := 0, loadingEnd := 1000, parsingEnd := 1000, loaded := 50000,
               total := 0, bwEstimate := 0, aborted := false, startTimeData := [],
               endTimeData := [], boxLoaded := 0 },
    currentQuality := 1, bandwidthEstimate := some 400000, abrEwmaDefaultEstimate := 500000,
    levelBitrates := [300000, 750000, 1500000, 3000000], bufferLevel := 4 }

/-- A buffered main fragment with box mode on whose `startTimeData` trims to
empty, and whose parse end (150 ms) differs from its load end (100 ms). -/
def boxFallbackInput : AbrController.FragBufferedInput :=
  { fragType := .main, fragSnIsInit := false,
    fragStats := { loadingStart := 0, loadingEnd := 100, parsingEnd := 150, loaded := 1000,
                   total := 1000, bwEstimate := 0, aborted := false,
                   startTimeData := [{ timestamp := 1, len := 10 }],
                   endTimeData := [{ timestamp := 2, len := 20 }, { timestamp := 3, len := 30 }],
                   boxLoaded := 500 },
    partStats := none, boxThroughputOn := true }

/-- Orchestrator state with the `LoLp` tag active (the shipped configuration)
and no stored rule instances. -/
def lolpOrchState : AbrController.OrchState :=
  { lastABRRule := .lolp, abrRule := .lolp, l2aRule := none, llama := none,
    stallionRule := none, fragPresent := true, forcedAutoLevel := -1,
    canEstimate := true, nextId := 0 }

/-- Orchestrator state with the `L2ARule` tag active and a stored L2A rule
instance (stamp 7). -/
def l2aOrchState : AbrController.OrchState :=
  { lastABRRule := .l2a, abrRule := .l2a, l2aRule := some 7, llama := none,
    stallionRule := none, fragPresent := true, forcedAutoLevel := -1,
    canEstimate := true, nextId := 8 }

/-!
## Theorems

Each claim of the specification is settled by one theorem below (plus, where a
claim fails on the code, a concrete counterexample theorem).
-/

/-- `scanForBitrate` always lands inside a non-empty ladder. -/
theorem scanForBitrate_lt (x : ℚ) (l : List ℚ) (hl : 0 < l.length) :
    ∀ n, n ≤ l.length → L2ARule.scanForBitrate x l n < l.length := by
  intro n
  induction n with
  | zero => intro _; simpa [L2ARule.scanForBitrate] using hl
  | succ i ih =>
    intro h
    simp only [L2ARule.scanForBitrate]
    split
    · omega
    · exact ih (by omega)

/-- A left fold of `min` stays among the seed and the folded elements. -/
theorem foldl_min_mem (l : List ℚ) : ∀ a : ℚ, l.foldl min a ∈ a :: l := by
  induction l with
  | nil => intro a; simp
  | cons b t ih =>
    intro a
    have h := ih (min a b)
    simp only [List.foldl_cons]
    rcases List.mem_cons.mp h with h1 | h1
    · rw [h1]
      rcases min_choice a b with hc | hc <;> rw [hc] <;> simp
    · simp [h1]

/-- `idxOfMin` of a non-empty list is a valid index. -/
theorem idxOfMin_lt (l : List ℚ) (h : l ≠ []) : L2ARule.idxOfMin l < l.length := by
  match l with
  | a :: rest =>
    apply List.findIdx_lt_length_of_exists
    exact ⟨rest.foldl min a, foldl_min_mem rest a, by simp⟩

/-- `getQualityForBitrate` (both variants) lands inside a non-empty ladder. -/
theorem getQualityForBitrate_lt (latency targetLatency : ℚ) (fragDuration : Option ℚ)
    (l : List ℚ) (bitrate : ℚ) (hl : 0 < l.length) :
    L2ARule.getQualityForBitrate latency targetLatency fragDuration l bitrate < l.length ∧
    StallionRule.getQualityForBitrate latency targetLatency fragDuration l bitrate < l.length := by
  constructor <;>
    · simp only [L2ARule.getQualityForBitrate, StallionRule.getQualityForBitrate]
      split
      · split
        · exact hl
        · exact scanForBitrate_lt _ _ hl _ le_rfl
      · exact scanForBitrate_lt _ _ hl _ le_rfl

/-- C3, counterexample: on `[0.6, 0.5, 0.4, −0.1]` the first component of the
returned projection is `13/30 ≈ 0.4333`, not within `1e-9` of the `0.4` the
claim states. -/
theorem projection_concrete_value_refuted :
    (L2ARule.euclideanProjection [3/5, 1/2, 2/5, -1/10]).getD 0 0 = 13/30 ∧
    ¬ |(L2ARule.euclideanProjection [3/5, 1/2, 2/5, -1/10]).getD 0 0 - 2/5| ≤ 1/1000000000 := by
  have h : L2ARule.euclideanProjection [3/5, 1/2, 2/5, -1/10] = [13/30, 1/3, 7/30, 0] := by
    norm_num [L2ARule.euclideanProjection, L2ARule.sortDescending, List.insertionSort,
      List.orderedInsert, L2ARule.projectionTmax]
  rw [h]
  norm_num [abs_le]

/-- C3, amended: `euclideanProjection [0.6, 0.5, 0.4, −0.1]` is exactly
`[13/30, 1/3, 7/30, 0]` (the three positive components each exceed the
spec-stated values by `1/30`, restoring the unit sum). -/
theorem projection_concrete_value :
    L2ARule.euclideanProjection [3/5, 1/2, 2/5, -1/10] = [13/30, 1/3, 7/30, 0] := by
  norm_num [L2ARule.euclideanProjection, L2ARule.sortDescending, List.insertionSort,
    List.orderedInsert, L2ARule.projectionTmax]

/-- C6: the aggregate Llama computes over the window of reciprocals is not the
harmonic mean.  On the window `[1/2, 1/4]` (throughput samples 2 and 4) the
code's `1 / (q.reduce((a, b) => a + 1/b) / N)` yields `4/9`, while
`N / Σ(1/tᵢ)` is `8/3`: the reduce adds `1/b` to an accumulator that already
holds reciprocals, so every element after the first enters as the raw
throughput. -/
theorem llama_aggregate_is_not_harmonic_mean :
    LlamaABR.harmonicMean [1/2, 1/4] = 4/9 ∧
    harmonicMeanSpec [1/2, 1/4] = 8/3 ∧
    LlamaABR.harmonicMean [1/2, 1/4] ≠ harmonicMeanSpec [1/2, 1/4] := by
  norm_num [LlamaABR.harmonicMean, harmonicMeanSpec]

/-- C7: at `currentQuality = 1` with collapsed throughput (400 kbps below
`bitrate[1] = 750` kbps), `getMaxIndex` returns 1, not the 0 the claim
requires: the clamp `currentQuality - 1 > 0 ? currentQuality - 1 :
currentQuality` keeps the decision at level 1 forever. -/
theorem llama_switch_down_stuck_at_level_one :
    (LlamaABR.getMaxIndex llamaState0 llamaDropInput).1 = 1 := by
  norm_num [LlamaABR.getMaxIndex, LlamaABR.harmonicMean, jsRound, llamaState0, llamaDropInput]
  rfl

/-- C10, counterexample: with box mode on and an empty trimmed
`startTimeData`, the fallback sample is `(loading.end − loading.start,
loaded) = (100, 1000)`, not the `(parsing.end − loading.start, loaded) =
(150, 1000)` the claim states. -/
theorem box_fallback_sample_refuted :
    AbrController.onFragBufferedSamples boxFallbackInput = [(100, 1000)] ∧
    AbrController.onFragBufferedSamples boxFallbackInput ≠
      [(boxFallbackInput.fragStats.parsingEnd - boxFallbackInput.fragStats.loadingStart,
        boxFallbackInput.fragStats.loaded)] := by
  norm_num [AbrController.onFragBufferedSamples, AbrController.bufferedStats,
    AbrController.trimEnds, boxFallbackInput]

/-- C10, amended: on `FRAG_BUFFERED` for a main-type, non-initSegment,
non-aborted fragment with box mode enabled, if trimming the first and last
entries of `startTimeData` or `endTimeData` leaves either trimmed array empty,
the bandwidth estimator is sampled exactly once, with duration
`loading.end − loading.start` of the fragment stats and bytes `loaded`. -/
theorem box_fallback_sample (inp : AbrController.FragBufferedInput)
    (h1 : (AbrController.bufferedStats inp).aborted = false)
    (h2 : inp.fragType = PlaylistLevelType.main)
    (h3 : inp.fragSnIsInit = false)
    (h4 : inp.boxThroughputOn = true)
    (h5 : AbrController.trimEnds inp.fragStats.startTimeData = [] ∨
          AbrController.trimEnds inp.fragStats.endTimeData = []) :
    AbrController.onFragBufferedSamples inp =
      [(inp.fragStats.loadingEnd - inp.fragStats.loadingStart, inp.fragStats.loaded)] := by
  have h6 : (AbrController.trimEnds inp.fragStats.startTimeData).length *
      (AbrController.trimEnds inp.fragStats.endTimeData).length = 0 := by
    rcases h5 with h | h <;> simp [h]
  simp [AbrController.onFragBufferedSamples, h1, h2, h3, h4, h6]

/-- C10, witness for the amended theorem at `boxFallbackInput`. -/
theorem box_fallback_sample_witness :
    AbrController.onFragBufferedSamples boxFallbackInput = [(100, 1000)] := by
  have h := box_fallback_sample boxFallbackInput rfl rfl rfl rfl
    (Or.inl (by norm_num [AbrController.trimEnds, boxFallbackInput]))
  simpa [boxFallbackInput] using h

/-- C5, counterexample: with the `LoLp` tag active, both the first decision
and the immediately following decision with the same tag construct a fresh
`LearningAbrController` (`newLearning = 1` on each call): the rule object is
not reused across decisions. -/
theorem lolp_rule_not_reused :
    (AbrController.orchStep lolpOrchState).2.newLearning = 1 ∧
    (AbrController.orchStep (AbrController.orchStep lolpOrchState).1).2.newLearning = 1 := by
  constructor <;> rfl

/-- C5, amended: the slot-based rules (`L2ARule`, `Llama`, `StallionRule`) are
lazily constructed on the first decision after their tag is active, reused on
every subsequent decision with the same tag, and dropped when the stored tag
differs from the active tag; the `LoLp` tag instead constructs a fresh
`LearningAbrController` on every decision. -/
theorem rule_instance_lifecycle (s : AbrController.OrchState) (idn : ℕ)
    (hf : s.forcedAutoLevel = -1) :
    (s.abrRule = .lolp → (AbrController.orchStep s).2.newLearning = 1) ∧
    (s.abrRule = .l2a → s.lastABRRule = .l2a → s.l2aRule = none →
      (AbrController.orchStep s).1.l2aRule = some s.nextId ∧
      (AbrController.orchStep s).2.newL2A = 1) ∧
    (s.abrRule = .l2a → s.lastABRRule = .l2a → s.l2aRule = some idn →
      (AbrController.orchStep s).1.l2aRule = some idn ∧
      (AbrController.orchStep s).2.newL2A = 0) ∧
    (s.abrRule = .llama → s.lastABRRule = .llama → s.llama = none → s.fragPresent = true →
      (AbrController.orchStep s).1.llama = some s.nextId ∧
      (AbrController.orchStep s).2.newLlama = 1) ∧
    (s.abrRule = .llama → s.lastABRRule = .llama → s.llama = some idn →
      (AbrController.orchStep s).1.llama = some idn ∧
      (AbrController.orchStep s).2.newLlama = 0) ∧
    (s.abrRule = .stallion → s.lastABRRule = .stallion → s.stallionRule = none →
      (AbrController.orchStep s).1.stallionRule = some s.nextId ∧
      (AbrController.orchStep s).2.newStallion = 1) ∧
    (s.abrRule = .stallion → s.lastABRRule = .stallion → s.stallionRule = some idn →
      (AbrController.orchStep s).1.stallionRule = some idn ∧
      (AbrController.orchStep s).2.newStallion = 0) ∧
    (s.lastABRRule = .l2a → s.abrRule ≠ .l2a → (AbrController.orchStep s).1.l2aRule = none) ∧
    (s.lastABRRule = .llama → s.abrRule ≠ .llama → (AbrController.orchStep s).1.llama = none) ∧
    (s.lastABRRule = .stallion → s.abrRule ≠ .stallion →
      (AbrController.orchStep s).1.stallionRule = none) := by
  refine ⟨?_, ?_, ?_, ?_, ?_, ?_, ?_, ?_, ?_, ?_⟩
  · intro habr
    cases hlast : s.lastABRRule <;>
      simp [AbrController.orchStep, AbrController.teardownStep, hf, habr, hlast]
  · intro habr hlast hs
    simp [AbrController.orchStep, AbrController.teardownStep, hf, habr, hlast, hs]
  · intro habr hlast hs
    simp [AbrController.orchStep, AbrController.teardownStep, AbrController.noNew,
      hf, habr, hlast, hs]
  · intro habr hlast hs hfp
    simp [AbrController.orchStep, AbrController.teardownStep, hf, habr, hlast, hs, hfp]
  · intro habr hlast hs
    simp [AbrController.orchStep, AbrController.teardownStep, AbrController.noNew,
      hf, habr, hlast, hs]
  · intro habr hlast hs
    simp [AbrController.orchStep, AbrController.teardownStep, hf, habr, hlast, hs]
  · intro habr hlast hs
    simp [AbrController.orchStep, AbrController.teardownStep, AbrController.noNew,
      hf, habr, hlast, hs]
  · intro hlast hne
    cases habr : s.abrRule <;> rw [habr] at hne <;>
      simp [AbrController.orchStep, AbrController.teardownStep, hf, habr, hlast] <;>
      (repeat' split) <;> simp_all
  · intro hlast hne
    cases habr : s.abrRule <;> rw [habr] at hne <;>
      simp [AbrController.orchStep, AbrController.teardownStep, hf, habr, hlast] <;>
      (repeat' split) <;> simp_all
  · intro hlast hne
    cases habr : s.abrRule <;> rw [habr] at hne <;>
      simp [AbrController.orchStep, AbrController.teardownStep, hf, habr, hlast] <;>
      (repeat' split) <;> simp_all

/-- C5, witness for the amended theorem: a stored L2A instance (stamp 7) is
kept, with no construction, by a decision under the same tag. -/
theorem rule_instance_lifecycle_witness :
    (AbrController.orchStep l2aOrchState).1.l2aRule = some 7 ∧
    (AbrController.orchStep l2aOrchState).2.newL2A = 0 :=
  (rule_instance_lifecycle l2aOrchState 7 rfl).2.2.1 rfl rfl rfl


/-- C4: the emergency-abandonment check never aborts (never forces
`nextLoadLevel`, never raises `FRAG_LOAD_EMERGENCY_ABORTED`) on a tick where
the buffer-starvation delay is at least two fragment durations of playback:
the early-continue guard returns before the downswitch walk. -/
theorem abandonment_no_abort_with_buffer (inp : AbrController.AbandonInput)
    (hpr : 0 < inp.mediaPlaybackRate)
    (h : 2 * AbrController.abandonDuration inp / |inp.mediaPlaybackRate| ≤
         (inp.bufferEnd - inp.mediaCurrentTime) / |inp.mediaPlaybackRate|) :
    AbrController.abandonRulesCheck inp = none := by
  unfold AbrController.abandonRulesCheck
  cases hfrag : inp.frag with
  | none => rfl
  | some frag =>
    simp only []
    split_ifs <;> first | rfl | exact absurd (Or.inl h) (by assumption)

/-- C4, witness: a tick with 20 s of buffer and a 6 s fragment at playback
rate 1 does not abort. -/
theorem abandonment_no_abort_with_buffer_witness :
    AbrController.abandonRulesCheck
      ⟨some ⟨2, 6, ⟨0, 0, 0, 200000, 2000000, 0, false, [], [], 0⟩⟩, none, true, true, false,
        1, 4, 3000, 0, 20, [300000, 750000, 1500000, 3000000], 0⟩ = none := by
  apply abandonment_no_abort_with_buffer
  · norm_num
  · norm_num [AbrController.abandonDuration]

/-- The down-shift fold keeps either the seed's neuron or one of the folded
neurons. -/
theorem downshift_fold_mem (cur : Neuron) (tp : ℚ) :
    ∀ (ns : List Neuron) (acc : ℚ × Neuron),
      ((ns.foldl (fun p n =>
          if n.bitrate < cur.bitrate ∧ p.1 < n.bitrate ∧ n.bitrate < tp
          then (n.bitrate, n) else p) acc).2 = acc.2 ∨
        (ns.foldl (fun p n =>
          if n.bitrate < cur.bitrate ∧ p.1 < n.bitrate ∧ n.bitrate < tp
          then (n.bitrate, n) else p) acc).2 ∈ ns) := by
  intro ns
  induction ns with
  | nil => intro acc; left; rfl
  | cons n t ih =>
    intro acc
    simp only [List.foldl_cons]
    rcases ih (if n.bitrate < cur.bitrate ∧ acc.1 < n.bitrate ∧ n.bitrate < tp
        then (n.bitrate, n) else acc) with h | h
    · rw [h]
      split
      · right; exact List.mem_cons_self n t
      · left; rfl
    · right; exact List.mem_cons_of_mem n h

/-- `_getDownShiftNeuron` returns the current neuron or a member of the
list. -/
theorem getDownShiftNeuron_mem (cur : Neuron) (tp : ℚ) (ns : List Neuron) :
    LearningAbrController.getDownShiftNeuron cur tp ns ∈ cur :: ns := by
  unfold LearningAbrController.getDownShiftNeuron
  rcases downshift_fold_mem cur tp ns (0, cur) with h | h
  · rw [h]; exact List.mem_cons_self cur ns
  · exact List.mem_cons_of_mem cur h

/-- The winner fold of `getNextQuality` never comes back empty except on the
empty neuron list with an empty seed. -/
theorem pickWinner_fold_eq_none (D : Neuron → ℚ) :
    ∀ (ns : List Neuron) (acc : Option (ℚ × Neuron)),
      ns.foldl (LearningAbrController.pickWinner D) acc = none → acc = none ∧ ns = [] := by
  intro ns
  induction ns with
  | nil => intro acc h; exact ⟨h, rfl⟩
  | cons n t ih =>
    intro acc h
    rcases ih _ h with ⟨h1, _⟩
    exfalso
    cases acc with
    | none => simp [LearningAbrController.pickWinner] at h1
    | some p =>
      rcases p with ⟨m, w⟩
      simp only [LearningAbrController.pickWinner] at h1
      split at h1 <;> simp at h1

/-- The winner picked by the fold is the seed's neuron or a member of the
list. -/
theorem pickWinner_fold_mem (D : Neuron → ℚ) :
    ∀ (ns : List Neuron) (acc : Option (ℚ × Neuron)) (q : ℚ × Neuron),
      ns.foldl (LearningAbrController.pickWinner D) acc = some q →
      (q.2 ∈ ns ∨ ∃ p, acc = some p ∧ q.2 = p.2) := by
  intro ns
  induction ns with
  | nil =>
    intro acc q h
    right
    exact ⟨q, h, rfl⟩
  | cons n t ih =>
    intro acc q h
    simp only [List.foldl_cons] at h
    rcases ih _ q h with h1 | ⟨p, hp, hq⟩
    · left; exact List.mem_cons_of_mem n h1
    · cases acc with
      | none =>
        simp only [LearningAbrController.pickWinner] at hp
        cases hp
        left
        rw [hq]
        exact List.mem_cons_self n t
      | some mw =>
        rcases mw with ⟨m, w⟩
        simp only [LearningAbrController.pickWinner] at hp
        split at hp
        · cases hp
          left
          rw [hq]
          exact List.mem_cons_self n t
        · cases hp
          right
          exact ⟨(m, w), rfl, hq⟩

/-- The cautious-ascent step of the L2A steady state stays below the ladder
size. -/
theorem steady_ascent_lt (t : List ℚ) (lq n : ℕ) (c : Prop) [Decidable c]
    (hlen : t.length = n) (hn : 0 < n) :
    (if lq < L2ARule.idxOfMin t ∧ c then lq + 1 else L2ARule.idxOfMin t) < n := by
  have ht : t ≠ [] := by
    intro h
    rw [h] at hlen
    simp at hlen
    omega
  have hq := idxOfMin_lt t ht
  rw [hlen] at hq
  split
  · next hcond => omega
  · exact hq

/-- C1: every quality decision is a valid ladder index.  For every non-empty
level ladder and every in-range `currentQuality` (and, for LoL+, every
controller state whose neurons carry in-range quality indices — the shape
every reachable state has), the values returned by `LlamaABR.getMaxIndex`,
`L2ARule.getMaxIndex`, `StallionRule.getMaxIndex` and
`LearningAbrController.getNextQuality` lie in `[0, |L|)` (the lower bound is
by the `ℕ` return type). -/
theorem decisions_within_ladder :
    (∀ (st : LlamaABR.State) (inp : LlamaABR.Input),
      inp.levelBitrates ≠ [] → inp.currentQuality < inp.levelBitrates.length →
      (LlamaABR.getMaxIndex st inp).1 < inp.levelBitrates.length) ∧
    (∀ (vl alpha : ℚ) (stOpt : Option L2ARule.L2AState)
      (parOpt : Option L2ARule.L2AParameters) (inp : L2ARule.Input),
      inp.levelBitrates ≠ [] → inp.currentQuality < inp.levelBitrates.length →
      L2ARule.getMaxIndex vl alpha stOpt parOpt inp < inp.levelBitrates.length) ∧
    (∀ (sqrtFn : ℚ → ℚ) (st : StallionRule.State) (inp : StallionRule.Input),
      inp.levelBitrates ≠ [] → inp.currentQuality < inp.levelBitrates.length →
      (StallionRule.getMaxIndex sqrtFn st inp).1 < inp.levelBitrates.length) ∧
    (∀ (sqrtFn : ℚ → ℚ) (st : LearningAbrController.State)
      (cfg : LoLpWeightSelector.Config) (prevLat : ℚ) (centers : List (List ℚ))
      (bitrateList : List ℚ) (tp lat buf rate : ℚ) (cqi : ℕ),
      (∀ n ∈ (LearningAbrController.resolve sqrtFn st bitrateList centers).1,
        n.qualityIndex < bitrateList.length) →
      (LearningAbrController.resolve sqrtFn st bitrateList centers).1 ≠ [] →
      cqi < (LearningAbrController.resolve sqrtFn st bitrateList centers).1.length →
      LearningAbrController.getNextQuality sqrtFn st cfg prevLat centers bitrateList
        tp lat buf rate cqi < bitrateList.length) := by
  refine ⟨?_, ?_, ?_, ?_⟩
  · intro st inp hne hcq
    have hl : 0 < inp.levelBitrates.length := List.length_pos.mpr hne
    simp only [LlamaABR.getMaxIndex, List.length_map]
    split_ifs <;> simp_all <;> omega
  · intro vl alpha stOpt parOpt inp hne hcq
    have hl : 0 < inp.levelBitrates.length := List.length_pos.mpr hne
    have hscan : ∀ lat tl fd b,
        L2ARule.getQualityForBitrate lat tl fd inp.levelBitrates b < inp.levelBitrates.length :=
      fun lat tl fd b => (getQualityForBitrate_lt lat tl fd inp.levelBitrates b hl).1
    simp only [L2ARule.getMaxIndex]
    split
    · exact hcq
    · cases stOpt with
      | none =>
        simp only [L2ARule.initialL2AState]
        split
        · exact hcq
        · split
          · exact hl
          · exact hscan _ _ _ _
      | some s =>
        cases parOpt with
        | none =>
          split
          · exact hcq
          · exact hcq
        | some par =>
          split
          · exact hcq
          · cases hstate : s.state with
            | oneBitrate => simp only [hstate]; exact hcq
            | startup =>
              simp only [hstate]
              split
              · exact hl
              · exact hscan _ _ _ _
            | steady =>
              simp only [hstate]
              exact steady_ascent_lt _ _ _ _ (by simp) hl
  · intro sqrtFn st inp hne hcq
    have hl : 0 < inp.levelBitrates.length := List.length_pos.mpr hne
    simp only [StallionRule.getMaxIndex]
    split_ifs <;>
      first
        | exact hcq
        | exact (getQualityForBitrate_lt _ _ _ _ _ hl).2
  · intro sqrtFn st cfg prevLat centers bitrateList tp lat buf rate cqi hall hne hcqi
    set ns := (LearningAbrController.resolve sqrtFn st bitrateList centers).1 with hns
    have hcur : ns.getD cqi defaultNeuron ∈ ns := by
      rw [List.getD_eq_getElem ns defaultNeuron hcqi]
      exact List.getElem_mem hcqi
    simp only [LearningAbrController.getNextQuality]
    rw [← hns]
    split
    · have hmem := getDownShiftNeuron_mem (ns.getD cqi defaultNeuron) tp ns
      rcases List.mem_cons.mp hmem with h | h
      · rw [h]
        exact hall _ hcur
      · exact hall _ h
    · split
      · next heq =>
        rcases pickWinner_fold_eq_none _ _ _ heq with ⟨_, h2⟩
        exact absurd h2 hne
      · next d w heq =>
        rcases pickWinner_fold_mem _ _ _ _ heq with h | ⟨p, hp, _⟩
        · exact hall _ h
        · cases hp

/-- C1, witness: each of the four decision functions, at a concrete state and
two-level (resp. one-level) ladder, lands inside the ladder. -/
theorem decisions_within_ladder_witness :
    (LlamaABR.getMaxIndex ⟨some 0, []⟩
      ⟨.main, some 10, ⟨0, 1000, 1000, 50000, 0, 0, false, [], [], 0⟩, 0, some 1000000,
        500000, [300000, 750000], 2⟩).1 < 2 ∧
    L2ARule.getMaxIndex 4 4 none none
      ⟨.main, [300000, 750000], some 1000000, 500000, 2, 1, false, 1, 1, some 2, 0⟩ < 2 ∧
    (StallionRule.getMaxIndex id ⟨[], []⟩
      ⟨.main, some 1000000, 500000, 1, true, 1, some 2, 2, [300000, 750000], 0⟩).1 < 2 ∧
    LearningAbrController.getNextQuality id
      ⟨some [⟨0, 300000, ⟨1, 0, 0, 0⟩⟩], 1, 300000, some [1, 1, 1, 1], []⟩
      ⟨3/2, 3/10, 2, 2, 750, 300⟩ 0 [] [300000] 1000 1 4 1 0 < 1 := by
  refine ⟨?_, ?_, ?_, ?_⟩
  · simpa using decisions_within_ladder.1 ⟨some 0, []⟩ _ (by simp) (by simp)
  · simpa using decisions_within_ladder.2.1 4 4 none none _ (by simp) (by simp)
  · simpa using decisions_within_ladder.2.2.1 id ⟨[], []⟩ _ (by simp) (by simp)
  · simpa using decisions_within_ladder.2.2.2 id
      ⟨some [⟨0, 300000, ⟨1, 0, 0, 0⟩⟩], 1, 300000, some [1, 1, 1, 1], []⟩
      ⟨3/2, 3/10, 2, 2, 750, 300⟩ 0 [] [300000] 1000 1 4 1 0
      (by simp [LearningAbrController.resolve])
      (by simp [LearningAbrController.resolve])
      (by simp [LearningAbrController.resolve])

/-- When some index satisfies the threshold, the descending scan returns the
largest such index. -/
theorem scanForBitrate_found (x : ℚ) (l : List ℚ) :
    ∀ n, (∃ i, i < n ∧ l.getD i 0 ≤ x * 1000) →
      L2ARule.scanForBitrate x l n < n ∧
      l.getD (L2ARule.scanForBitrate x l n) 0 ≤ x * 1000 ∧
      ∀ j, L2ARule.scanForBitrate x l n < j → j < n → ¬ l.getD j 0 ≤ x * 1000 := by
  intro n
  induction n with
  | zero =>
    rintro ⟨i, hi, _⟩
    omega
  | succ i ih =>
    rintro ⟨k, hk, hkle⟩
    simp only [L2ARule.scanForBitrate]
    split
    · next hcond =>
      refine ⟨Nat.lt_succ_self i, hcond, ?_⟩
      intro j hj1 hj2
      omega
    · next hcond =>
      have hex' : ∃ k, k < i ∧ l.getD k 0 ≤ x * 1000 := by
        rcases Nat.lt_succ_iff_lt_or_eq.mp hk with h' | h'
        · exact ⟨k, h', hkle⟩
        · subst h'
          exact absurd hkle hcond
      rcases ih hex' with ⟨h1, h2, h3⟩
      refine ⟨h1.trans (Nat.lt_succ_self i), h2, ?_⟩
      intro j hj1 hj2
      rcases Nat.lt_succ_iff_lt_or_eq.mp hj2 with h' | h'
      · exact h3 j hj1 h'
      · subst h'
        exact hcond

/-- When no index satisfies the threshold, the descending scan returns 0. -/
theorem scanForBitrate_none (x : ℚ) (l : List ℚ) :
    ∀ n, (∀ i, i < n → ¬ l.getD i 0 ≤ x * 1000) → L2ARule.scanForBitrate x l n = 0 := by
  intro n
  induction n with
  | zero => intro _; rfl
  | succ i ih =>
    intro h
    simp only [L2ARule.scanForBitrate]
    rw [if_neg (h i (Nat.lt_succ_self i))]
    exact ih (fun j hj => h j (hj.trans (Nat.lt_succ_self i)))

/-- C8: `getQualityForBitrate` (both the L2A and Stallion variants) with
latency feedback available, a current fragment of positive duration and a
positive-bitrate ladder: when `|latency − target| ≥ fragDuration` it returns
0 (the L2A variant's strict gate reaches the same value through a
zero-throughput scan at equality); otherwise the two variants agree, and they
return the highest index whose bitrate is at most the dead-time-shrunk
throughput `bitrate · (1 − |Δ|/fragDuration) · 1000`, or 0 when no index
qualifies. -/
theorem getQualityForBitrate_spec (latency targetLatency fragDuration bitrate : ℚ)
    (L : List ℚ) (hlat : latency ≠ 0) (hd : 0 < fragDuration) (hpos : ∀ b ∈ L, 0 < b) :
    (fragDuration ≤ |latency - targetLatency| →
      L2ARule.getQualityForBitrate latency targetLatency (some fragDuration) L bitrate = 0 ∧
      StallionRule.getQualityForBitrate latency targetLatency (some fragDuration) L bitrate = 0) ∧
    (|latency - targetLatency| < fragDuration →
      L2ARule.getQualityForBitrate latency targetLatency (some fragDuration) L bitrate =
        StallionRule.getQualityForBitrate latency targetLatency (some fragDuration) L bitrate ∧
      ((∃ i, i < L.length ∧
          L.getD i 0 ≤ bitrate * (1 - |latency - targetLatency| / fragDuration) * 1000) →
        L2ARule.getQualityForBitrate latency targetLatency (some fragDuration) L bitrate <
            L.length ∧
        L.getD (L2ARule.getQualityForBitrate latency targetLatency (some fragDuration) L bitrate)
            0 ≤ bitrate * (1 - |latency - targetLatency| / fragDuration) * 1000 ∧
        ∀ j, j < L.length →
          L.getD j 0 ≤ bitrate * (1 - |latency - targetLatency| / fragDuration) * 1000 →
          j ≤ L2ARule.getQualityForBitrate latency targetLatency (some fragDuration) L bitrate) ∧
      ((∀ i, i < L.length →
          ¬ L.getD i 0 ≤ bitrate * (1 - |latency - targetLatency| / fragDuration) * 1000) →
        L2ARule.getQualityForBitrate latency targetLatency (some fragDuration) L bitrate = 0)) := by
  constructor
  · intro hge
    constructor
    · simp only [L2ARule.getQualityForBitrate, Option.isSome_some, hlat, ne_eq,
        not_false_eq_true, true_and, Option.getD_some, if_true]
      split
      · rfl
      · next hlt =>
        have heq : |latency - targetLatency| = fragDuration := le_antisymm (not_lt.mp hlt) hge
        apply scanForBitrate_none
        intro j hj hle
        have hmem : L.getD j 0 ∈ L := by
          rw [List.getD_eq_getElem L 0 hj]
          exact List.getElem_mem hj
        have hposj := hpos _ hmem
        rw [heq, div_self (ne_of_gt hd)] at hle
        have hz : bitrate * (1 - 1) * 1000 = 0 := by ring
        rw [hz] at hle
        linarith
    · simp only [StallionRule.getQualityForBitrate, Option.isSome_some, hlat, ne_eq,
        not_false_eq_true, true_and, Option.getD_some, if_true]
      rw [if_pos hge]
  · intro hlt
    have hl2a : L2ARule.getQualityForBitrate latency targetLatency (some fragDuration) L bitrate
        = L2ARule.scanForBitrate (bitrate * (1 - |latency - targetLatency| / fragDuration)) L
            L.length := by
      simp only [L2ARule.getQualityForBitrate, Option.isSome_some, hlat, ne_eq,
        not_false_eq_true, true_and, Option.getD_some, if_true]
      rw [if_neg (not_lt.mpr (le_of_lt hlt))]
    have hsta : StallionRule.getQualityForBitrate latency targetLatency (some fragDuration) L
        bitrate = L2ARule.scanForBitrate (bitrate * (1 - |latency - targetLatency| /
          fragDuration)) L L.length := by
      simp only [StallionRule.getQualityForBitrate, Option.isSome_some, hlat, ne_eq,
        not_false_eq_true, true_and, Option.getD_some, if_true]
      rw [if_neg (not_le.mpr hlt)]
    refine ⟨hl2a.trans hsta.symm, ?_, ?_⟩
    · intro hex
      rw [hl2a]
      rcases scanForBitrate_found _ L L.length hex with ⟨h1, h2, h3⟩
      refine ⟨h1, h2, ?_⟩
      intro j hj hjle
      by_contra hgt
      exact h3 j (not_le.mp hgt) hj hjle
    · intro hnone
      rw [hl2a]
      exact scanForBitrate_none _ L L.length hnone

/-- C8, witness: latency 2 s against target 1.5 s on a 2 s fragment is inside
the dead-time band, and the two variants agree there. -/
theorem getQualityForBitrate_spec_witness :
    |(2 : ℚ) - 3/2| < 2 ∧
    L2ARule.getQualityForBitrate 2 (3/2) (some 2) [300000, 750000] 1000 =
      StallionRule.getQualityForBitrate 2 (3/2) (some 2) [300000, 750000] 1000 := by
  have hΔ : |(2 : ℚ) - 3/2| < 2 := by
    rw [show (2 : ℚ) - 3/2 = 1/2 by norm_num, abs_of_nonneg (by norm_num)]
    norm_num
  have h := (getQualityForBitrate_spec 2 (3/2) 2 1000 [300000, 750000]
    (by norm_num) (by norm_num) (by norm_num)).2 hΔ
  exact ⟨hΔ, h.1⟩

/-- The accumulator form of one permutation-generator round. -/
theorem foldl_extend_eq (list : List ℚ) :
    ∀ (perm : List (List ℚ)) (acc : List (List ℚ)),
      perm.foldl (fun acc currPerm => acc ++ list.map (fun v => currPerm ++ [v])) acc =
        acc ++ perm.flatMap (fun p => list.map (fun v => p ++ [v])) := by
  intro perm
  induction perm with
  | nil => intro acc; simp
  | cons p t ih =>
    intro acc
    simp only [List.foldl_cons, List.flatMap_cons, ih, List.append_assoc]

/-- One generator round is the one-element extension of every permutation. -/
theorem permutationRound_eq (list : List ℚ) (perm : List (List ℚ)) :
    LoLpWeightSelector.permutationRound list perm =
      perm.flatMap (fun p => list.map (fun v => p ++ [v])) := by
  simpa [LoLpWeightSelector.permutationRound] using foldl_extend_eq list perm []

/-- Membership after one generator round. -/
theorem permutationRound_mem (list : List ℚ) (perm : List (List ℚ)) (w : List ℚ) :
    w ∈ LoLpWeightSelector.permutationRound list perm ↔
      ∃ p ∈ perm, ∃ v ∈ list, w = p ++ [v] := by
  simp [permutationRound_eq, List.mem_flatMap, eq_comm]

/-- Membership after `n` generator rounds: a stored permutation extended by
any length-`n` word over the value list. -/
theorem permutationRounds_mem (list : List ℚ) :
    ∀ (n : ℕ) (perm : List (List ℚ)) (w : List ℚ),
      w ∈ LoLpWeightSelector.permutationRounds list n perm ↔
        ∃ p ∈ perm, ∃ t, t.length = n ∧ (∀ x ∈ t, x ∈ list) ∧ w = p ++ t := by
  intro n
  induction n with
  | zero =>
    intro perm w
    simp only [LoLpWeightSelector.permutationRounds]
    constructor
    · intro h
      exact ⟨w, h, [], rfl, by simp, by simp⟩
    · rintro ⟨p, hp, t, ht, _, rfl⟩
      rw [List.length_eq_zero.mp ht]
      simpa using hp
  | succ n ih =>
    intro perm w
    simp only [LoLpWeightSelector.permutationRounds]
    rw [ih]
    constructor
    · rintro ⟨p', hp', t, ht, hsub, rfl⟩
      rcases (permutationRound_mem list perm p').mp hp' with ⟨p, hp, v, hv, rfl⟩
      refine ⟨p, hp, v :: t, by simp [ht], ?_, by simp⟩
      intro x hx
      rcases List.mem_cons.mp hx with h | h
      · rw [h]; exact hv
      · exact hsub x h
    · rintro ⟨p, hp, t, ht, hsub, rfl⟩
      cases t with
      | nil => simp at ht
      | cons v t' =>
        refine ⟨p ++ [v], ?_, t', by simpa using ht,
          fun x hx => hsub x (List.mem_cons_of_mem v hx), by simp⟩
        exact (permutationRound_mem list perm (p ++ [v])).mpr
          ⟨p, hp, v, hsub v (List.mem_cons_self v t'), rfl⟩

/-- `_getPermutations` produces exactly the 4-letter words over the value
list. -/
theorem getPermutations_mem (w : List ℚ) :
    w ∈ LoLpWeightSelector.getPermutations ↔
      w.length = 4 ∧ ∀ x ∈ w, x ∈ LoLpWeightSelector.valueList := by
  unfold LoLpWeightSelector.getPermutations LoLpWeightSelector.weightTypeCount
  rw [permutationRounds_mem]
  constructor
  · rintro ⟨p, hp, t, ht, hsub, rfl⟩
    rcases List.mem_map.mp hp with ⟨v, hv, rfl⟩
    refine ⟨by simp [ht], ?_⟩
    intro x hx
    rcases List.mem_append.mp hx with h | h
    · rw [List.mem_singleton.mp h]; exact hv
    · exact hsub x h
  · rintro ⟨hlen, hsub⟩
    cases w with
    | nil => simp at hlen
    | cons v t =>
      refine ⟨[v], List.mem_map.mpr ⟨v, hsub v (List.mem_cons_self v t), rfl⟩, t,
        by simpa using hlen, fun x hx => hsub x (List.mem_cons_of_mem v hx), by simp⟩

/-- Size of one generator round. -/
theorem permutationRound_length (list : List ℚ) (perm : List (List ℚ)) :
    (LoLpWeightSelector.permutationRound list perm).length = perm.length * list.length := by
  rw [permutationRound_eq]
  induction perm with
  | nil => simp
  | cons p t ih => simp [ih, Nat.succ_mul, Nat.add_comm]

/-- Size after `n` generator rounds. -/
theorem permutationRounds_length (list : List ℚ) :
    ∀ (n : ℕ) (perm : List (List ℚ)),
      (LoLpWeightSelector.permutationRounds list n perm).length =
        perm.length * list.length ^ n := by
  intro n
  induction n with
  | zero => intro perm; simp [LoLpWeightSelector.permutationRounds]
  | succ n ih =>
    intro perm
    simp only [LoLpWeightSelector.permutationRounds]
    rw [ih, permutationRound_length]
    ring

/-- The five weight values are pairwise distinct. -/
theorem valueList_nodup : LoLpWeightSelector.valueList.Nodup := by
  norm_num [LoLpWeightSelector.valueList]

/-- A generator round preserves distinctness. -/
theorem permutationRound_nodup (list : List ℚ) (perm : List (List ℚ))
    (hl : list.Nodup) (hp : perm.Nodup) :
    (LoLpWeightSelector.permutationRound list perm).Nodup := by
  rw [permutationRound_eq]
  rw [List.nodup_flatMap]
  constructor
  · intro p _
    exact hl.map (fun a b h => by simpa using List.append_inj' h rfl)
  · apply hp.imp
    intro p q hpq
    intro w hw1 hw2
    rcases List.mem_map.mp hw1 with ⟨v, _, rfl⟩
    rcases List.mem_map.mp hw2 with ⟨v', _, h⟩
    exact hpq (List.append_inj' h.symm rfl).1

/-- All generator rounds preserve distinctness. -/
theorem permutationRounds_nodup (list : List ℚ) (hl : list.Nodup) :
    ∀ (n : ℕ) (perm : List (List ℚ)), perm.Nodup →
      (LoLpWeightSelector.permutationRounds list n perm).Nodup := by
  intro n
  induction n with
  | zero => intro perm hp; exact hp
  | succ n ih =>
    intro perm hp
    exact ih _ (permutationRound_nodup list perm hl hp)

/-- The winner kept by the inner weight loop comes from the folded options or
from the seed. -/
theorem pickWeights_fold_mem (f : List ℚ → ℚ) :
    ∀ (opts : List (List ℚ)) (acc : Option (ℚ × List ℚ)) (q : ℚ) (w : List ℚ),
      opts.foldl (LoLpWeightSelector.pickWeights f) acc = some (q, w) →
      (w ∈ opts ∨ ∃ m ww, acc = some (m, ww) ∧ w = ww) := by
  intro opts
  induction opts with
  | nil =>
    intro acc q w h
    right
    exact ⟨q, w, h, rfl⟩
  | cons o t ih =>
    intro acc q w h
    simp only [List.foldl_cons] at h
    rcases ih _ q w h with h1 | ⟨m, ww, hmw, rfl⟩
    · left; exact List.mem_cons_of_mem o h1
    · cases acc with
      | none =>
        simp only [LoLpWeightSelector.pickWeights] at hmw
        cases hmw
        left
        exact List.mem_cons_self o t
      | some p =>
        rcases p with ⟨pm, pw⟩
        simp only [LoLpWeightSelector.pickWeights] at hmw
        split at hmw
        · cases hmw
          left
          exact List.mem_cons_self o t
        · cases hmw
          right
          exact ⟨_, _, rfl, rfl⟩

/-- One neuron iteration of `findWeightVector` keeps the accumulator or picks
an enumerated weight vector. -/
theorem scoreNeuron_mem (cfg : LoLpWeightSelector.Config) (dl cl cb ct pr : ℚ)
    (acc : Option (ℚ × List ℚ)) (n : Neuron) (q : ℚ) (w : List ℚ)
    (h : LoLpWeightSelector.scoreNeuron cfg dl cl cb ct pr acc n = some (q, w)) :
    w ∈ LoLpWeightSelector.getPermutations ∨ ∃ m ww, acc = some (m, ww) ∧ w = ww := by
  simp only [LoLpWeightSelector.scoreNeuron] at h
  split at h
  · rcases pickWeights_fold_mem _ _ _ _ _ h with h1 | h1
    · left; exact h1
    · right; exact h1
  · right; exact ⟨q, w, h, rfl⟩

/-- The neuron fold of `findWeightVector` preserves the invariant that any
picked winner is one of the enumerated weight vectors. -/
theorem findWeightVector_fold_inv (cfg : LoLpWeightSelector.Config) (dl cl cb ct pr : ℚ) :
    ∀ (neurons : List Neuron) (acc : Option (ℚ × List ℚ)),
      (∀ q w, acc = some (q, w) → w ∈ LoLpWeightSelector.getPermutations) →
      ∀ q w,
        neurons.foldl (LoLpWeightSelector.scoreNeuron cfg dl cl cb ct pr) acc = some (q, w) →
        w ∈ LoLpWeightSelector.getPermutations := by
  intro neurons
  induction neurons with
  | nil => intro acc hinv q w h; exact hinv q w h
  | cons n t ih =>
    intro acc hinv q w h
    simp only [List.foldl_cons] at h
    apply ih _ _ q w h
    intro q' w' h'
    rcases scoreNeuron_mem cfg dl cl cb ct pr acc n q' w' h' with h1 | ⟨m, ww, hmw, hww⟩
    · exact h1
    · rw [hww]
      exact hinv m ww hmw

/-- C9: `LoLpWeightSelector` enumerates exactly 625 = 5⁴ pairwise-distinct
candidate weight vectors at construction — precisely the 4-letter words over
`{0.2, 0.4, 0.6, 0.8, 1}` (the Cartesian product over the four axes) — and
for every input, `findWeightVector` returns either one of those vectors or
the `-1` sentinel (modelled `none`). -/
theorem weight_selector_enumeration :
    LoLpWeightSelector.getPermutations.length = 625 ∧
    LoLpWeightSelector.getPermutations.Nodup ∧
    (∀ w, w ∈ LoLpWeightSelector.getPermutations ↔
      (w.length = 4 ∧ ∀ x ∈ w, x ∈ LoLpWeightSelector.valueList)) ∧
    (∀ (cfg : LoLpWeightSelector.Config) (prevLat : ℚ) (neurons : List Neuron)
      (cl cb ct pr : ℚ),
      LoLpWeightSelector.findWeightVector cfg prevLat neurons cl cb ct pr = none ∨
      ∃ v, LoLpWeightSelector.findWeightVector cfg prevLat neurons cl cb ct pr = some v ∧
        v ∈ LoLpWeightSelector.getPermutations) := by
  refine ⟨?_, ?_, getPermutations_mem, ?_⟩
  · unfold LoLpWeightSelector.getPermutations LoLpWeightSelector.weightTypeCount
    rw [permutationRounds_length]
    simp [LoLpWeightSelector.valueList]
  · unfold LoLpWeightSelector.getPermutations LoLpWeightSelector.weightTypeCount
    apply permutationRounds_nodup _ valueList_nodup
    exact valueList_nodup.map (fun a b h => by simpa using h)
  · intro cfg prevLat neurons cl cb ct pr
    simp only [LoLpWeightSelector.findWeightVector]
    cases hfold : neurons.foldl
        (LoLpWeightSelector.scoreNeuron cfg |cl - prevLat| cl cb ct pr) none with
    | none =>
      left
      rfl
    | some p =>
      right
      refine ⟨p.2, rfl, ?_⟩
      exact findWeightVector_fold_inv cfg _ cl cb ct pr neurons none (by simp) p.1 p.2
        (by rw [hfold])

/-- The descending sort is a permutation of its input. -/
theorem sortDescending_perm (l : List ℚ) : List.Perm (L2ARule.sortDescending l) l :=
  List.perm_insertionSort _ l

/-- The descending sort is sorted for `≥`. -/
theorem sortDescending_sorted (l : List ℚ) : (L2ARule.sortDescending l).Sorted (· ≥ ·) :=
  List.sorted_insertionSort _ l

/-- Core property of the `tmax` scan on a descending-sorted list: starting
from prefix sum `tmpsum` over `idx` consumed elements with the no-break
invariant `tmpsum - 1 < idx * head`, the computed threshold never exceeds the
head, and thresholding the remaining list sums to `1 - tmpsum + idx * tmax`. -/
theorem projectionTmax_spec :
    ∀ (t : List ℚ) (a tmpsum : ℚ) (idx : ℕ),
      (a :: t).Sorted (· ≥ ·) →
      tmpsum - 1 < idx * a →
      (L2ARule.projectionTmax tmpsum idx (a :: t) ≤ a ∧
        ((a :: t).map (fun v => max (v - L2ARule.projectionTmax tmpsum idx (a :: t)) 0)).sum
          = 1 - tmpsum + idx * L2ARule.projectionTmax tmpsum idx (a :: t)) := by
  intro t
  induction t with
  | nil =>
    intro a tmpsum idx _ hbound
    simp only [L2ARule.projectionTmax]
    have hpos : (0 : ℚ) < idx + 1 := by positivity
    have hτa : (tmpsum + a - 1) / (idx + 1) ≤ a := by
      rw [div_le_iff₀ hpos]
      nlinarith
    have hmul : (tmpsum + a - 1) / (idx + 1) * (idx + 1) = tmpsum + a - 1 :=
      div_mul_cancel₀ _ (ne_of_gt hpos)
    constructor
    · exact hτa
    · simp only [List.map_cons, List.map_nil, List.sum_cons, List.sum_nil]
      rw [max_eq_left (sub_nonneg.mpr hτa)]
      nlinarith
  | cons b rest ih =>
    intro a tmpsum idx hsorted hbound
    have hab : b ≤ a := (List.sorted_cons.mp hsorted).1 b (List.mem_cons_self b rest)
    have htail : (b :: rest).Sorted (· ≥ ·) := (List.sorted_cons.mp hsorted).2
    have hpos : (0 : ℚ) < idx + 1 := by positivity
    simp only [L2ARule.projectionTmax]
    split
    · next hbr =>
      -- break: tmax = (tmpsum + a - 1) / (idx + 1) and b ≤ tmax
      have hτa : (tmpsum + a - 1) / (idx + 1) ≤ a := by
        rw [div_le_iff₀ hpos]
        nlinarith
      have hmul : (tmpsum + a - 1) / (idx + 1) * (idx + 1) = tmpsum + a - 1 :=
        div_mul_cancel₀ _ (ne_of_gt hpos)
      refine ⟨hτa, ?_⟩
      simp only [List.map_cons, List.sum_cons]
      rw [max_eq_left (sub_nonneg.mpr hτa)]
      have hzero : ((b :: rest).map
          (fun v => max (v - (tmpsum + a - 1) / (idx + 1)) 0)).sum = 0 := by
        apply List.sum_eq_zero
        intro x hx
        rcases List.mem_map.mp hx with ⟨v, hv, rfl⟩
        have hvb : v ≤ b := by
          rcases List.mem_cons.mp hv with h | h
          · rw [h]
          · exact (List.sorted_cons.mp htail).1 v h
        exact max_eq_right (by linarith)
      simp only [List.map_cons, List.sum_cons] at hzero
      nlinarith [hzero]
    · next hbr =>
      push_neg at hbr
      have hbound' : tmpsum + a - 1 < (idx + 1 : ℕ) * b := by
        rw [div_lt_iff₀ hpos] at hbr
        push_cast
        linarith
      rcases ih b (tmpsum + a) (idx + 1) htail hbound' with ⟨hτb, hsum⟩
      have hτa : L2ARule.projectionTmax (tmpsum + a) (idx + 1) (b :: rest) ≤ a :=
        le_trans hτb hab
      refine ⟨hτa, ?_⟩
      simp only [List.map_cons, List.sum_cons]
      rw [max_eq_left (sub_nonneg.mpr hτa)]
      simp only [List.map_cons, List.sum_cons] at hsum
      push_cast at hsum ⊢
      linarith

/-- `euclideanProjection` thresholds the input (in original order) at the
scanned `tmax`. -/
theorem euclideanProjection_eq_map (w : List ℚ) :
    L2ARule.euclideanProjection w =
      w.map (fun v =>
        max (v - L2ARule.projectionTmax 0 0 (L2ARule.sortDescending w)) 0) := rfl

/-- The projection of a non-empty vector sums to exactly 1. -/
theorem euclideanProjection_sum (w : List ℚ) (hw : w ≠ []) :
    (L2ARule.euclideanProjection w).sum = 1 := by
  have hperm := sortDescending_perm w
  cases hs : L2ARule.sortDescending w with
  | nil =>
    rw [hs] at hperm
    exact absurd (hperm.symm.eq_nil ▸ rfl : w = []) hw
  | cons a t =>
    have hsorted : (a :: t).Sorted (· ≥ ·) := hs ▸ sortDescending_sorted w
    have hspec := projectionTmax_spec t a 0 0 hsorted (by push_cast; linarith)
    rw [euclideanProjection_eq_map, hs]
    have hmapperm :
        List.Perm (List.map (fun v => max (v - L2ARule.projectionTmax 0 0 (a :: t)) 0) (a :: t))
          (List.map (fun v => max (v - L2ARule.projectionTmax 0 0 (a :: t)) 0) w) := by
      exact (hs ▸ hperm).map _
    rw [← hmapperm.sum_eq]
    rw [hspec.2]
    push_cast
    ring

/-- Squared distances are non-negative. -/
theorem sqDist_nonneg : ∀ (u v : List ℚ), 0 ≤ sqDist u v := by
  intro u
  induction u with
  | nil => intro v; simp [sqDist]
  | cons a u ih =>
    intro v
    cases v with
    | nil => simp [sqDist]
    | cons b v =>
      simp only [sqDist, List.zipWith_cons_cons, List.sum_cons]
      have h1 := ih v
      simp only [sqDist] at h1
      nlinarith [sq_nonneg (a - b)]

/-- Bilinear expansion of the squared distance around the thresholded
vector. -/
theorem sqDist_expand (τ : ℚ) :
    ∀ (w y : List ℚ), y.length = w.length →
      sqDist w y = sqDist w (w.map (fun a => max (a - τ) 0))
        + 2 * (List.zipWith (fun a b => (a - max (a - τ) 0) * (max (a - τ) 0 - b)) w y).sum
        + sqDist (w.map (fun a => max (a - τ) 0)) y := by
  intro w
  induction w with
  | nil =>
    intro y hy
    rw [List.length_nil, List.length_eq_zero] at hy
    subst hy
    simp [sqDist]
  | cons a w ih =>
    intro y hy
    cases y with
    | nil => simp at hy
    | cons b y =>
      have hlen : y.length = w.length := by simpa using hy
      have h := ih y hlen
      simp only [sqDist, List.map_cons, List.zipWith_cons_cons, List.sum_cons] at h ⊢
      nlinarith [h]

/-- The two orientations of the cross term are negatives of each other. -/
theorem cross_neg (τ : ℚ) :
    ∀ (w y : List ℚ),
      (List.zipWith (fun a b => (a - max (a - τ) 0) * (max (a - τ) 0 - b)) w y).sum
        = -(List.zipWith (fun a b => (a - max (a - τ) 0) * (b - max (a - τ) 0)) w y).sum := by
  intro w
  induction w with
  | nil => intro y; simp
  | cons a w ih =>
    intro y
    cases y with
    | nil => simp
    | cons b y =>
      simp only [List.zipWith_cons_cons, List.sum_cons, ih y]
      ring

/-- KKT-style bound: the inner product of the residual with any non-negative
vector is controlled by the threshold times the mass difference. -/
theorem inner_bound (τ : ℚ) :
    ∀ (w y : List ℚ), y.length = w.length → (∀ c ∈ y, 0 ≤ c) →
      (List.zipWith (fun a b => (a - max (a - τ) 0) * (b - max (a - τ) 0)) w y).sum
        ≤ τ * (y.sum - (w.map (fun a => max (a - τ) 0)).sum) := by
  intro w
  induction w with
  | nil =>
    intro y hy _
    rw [List.length_nil, List.length_eq_zero] at hy
    subst hy
    simp
  | cons a w ih =>
    intro y hy hpos
    cases y with
    | nil => simp at hy
    | cons b y =>
      have hlen : y.length = w.length := by simpa using hy
      have hb : 0 ≤ b := hpos b (List.mem_cons_self b y)
      have htail := ih y hlen (fun c hc => hpos c (List.mem_cons_of_mem b hc))
      have hhead : (a - max (a - τ) 0) * (b - max (a - τ) 0)
          ≤ τ * (b - max (a - τ) 0) := by
        rcases le_or_lt τ a with h | h
        · rw [max_eq_left (sub_nonneg.mpr h)]
          ring_nf
          nlinarith
        · rw [max_eq_right (by linarith : a - τ ≤ 0)]
          nlinarith
      simp only [List.map_cons, List.zipWith_cons_cons, List.sum_cons]
      nlinarith [htail, hhead]

/-- C2: for every non-empty vector `w`, `euclideanProjection w` has
non-negative components, sums to exactly 1, has the length of `w`, and is the
closest such vector to `w` in squared Euclidean distance: the exact projection
of `w` onto the probability simplex. -/
theorem euclideanProjection_is_projection (w : List ℚ) (hw : w ≠ []) :
    (∀ c ∈ L2ARule.euclideanProjection w, 0 ≤ c) ∧
    (L2ARule.euclideanProjection w).sum = 1 ∧
    (L2ARule.euclideanProjection w).length = w.length ∧
    (∀ y : List ℚ, y.length = w.length → (∀ c ∈ y, 0 ≤ c) → y.sum = 1 →
      sqDist w (L2ARule.euclideanProjection w) ≤ sqDist w y) := by
  refine ⟨?_, euclideanProjection_sum w hw, ?_, ?_⟩
  · intro c hc
    rw [euclideanProjection_eq_map] at hc
    rcases List.mem_map.mp hc with ⟨v, _, rfl⟩
    exact le_max_right _ _
  · rw [euclideanProjection_eq_map]
    simp
  · intro y hylen hypos hysum
    have hexp := sqDist_expand (L2ARule.projectionTmax 0 0 (L2ARule.sortDescending w)) w y hylen
    have hcross := cross_neg (L2ARule.projectionTmax 0 0 (L2ARule.sortDescending w)) w y
    have hinner := inner_bound (L2ARule.projectionTmax 0 0 (L2ARule.sortDescending w)) w y
      hylen hypos
    have hxsum : (w.map (fun a =>
        max (a - L2ARule.projectionTmax 0 0 (L2ARule.sortDescending w)) 0)).sum = 1 := by
      have h := euclideanProjection_sum w hw
      rw [euclideanProjection_eq_map] at h
      exact h
    have hnn := sqDist_nonneg (w.map (fun a =>
      max (a - L2ARule.projectionTmax 0 0 (L2ARule.sortDescending w)) 0)) y
    rw [euclideanProjection_eq_map]
    rw [hysum, hxsum] at hinner
    nlinarith [hexp, hcross, hinner, hnn]

/-- C2, witness: the projection of `[2, 0]` sums to 1 and beats the simplex
point `[1/2, 1/2]` in distance. -/
theorem euclideanProjection_is_projection_witness :
    (L2ARule.euclideanProjection [2, 0]).sum = 1 ∧
    sqDist [2, 0] (L2ARule.euclideanProjection [2, 0]) ≤ sqDist [2, 0] [1/2, 1/2] := by
  have h := euclideanProjection_is_projection [2, 0] (by simp)
  refine ⟨h.2.1, h.2.2.2 [1/2, 1/2] (by simp) ?_ (by norm_num)⟩
  intro c hc
  rcases List.mem_cons.mp hc with h1 | h1
  · rw [h1]; norm_num
  · rw [List.mem_singleton.mp h1]; norm_num
